import Mathlib

/-!
Verification development for the coordinate-extraction core of
the extract-schema-coordinates package (src/extract-schema-coordinates.ts).

The embedding models the single exported function
`extractSchemaCoordinates(documentText, schemaText)` working over an
already-parsed document AST and an already-built schema model (parsing and
schema building are external collaborator capabilities consumed through
their public contracts: the package calls graphql-js `parse` and
`buildSchema`).  Machine-level details that cannot affect the claims
(memoization of parse/buildSchema, string source positions) are not
modelled.
-/

namespace ExtractSchemaCoordinates

/-! ## Type nodes and the untyped unwrap helper -/

/-- The three operation kinds of an `OperationDefinition` node
(`definition.operation` in graphql-js). -/
inductive OperationType where
  | query
  | mutation
  | subscription
deriving DecidableEq, Repr

/-- The literal operation string the code interpolates into the
`GraphQLError` message (graphql-js stores the kind in lowercase). -/
def OperationType.opName : OperationType → String
  | .query => "query"
  | .mutation => "mutation"
  | .subscription => "subscription"

/-- A parser-produced type node: `NamedType`, `ListType` or `NonNullType`
(the `TypeNode` union of graphql-js AST). -/
inductive TypeNode where
  | named (name : String)
  | list (t : TypeNode)
  | nonNull (t : TypeNode)
deriving DecidableEq, Repr

/-- Structural unwrap of list/non-null wrappers down to the named type;
this is the value `getTypeNameFromType` computes on parser-produced nodes. -/
def TypeNode.typeName : TypeNode → String
  | .named n => n
  | .list t => t.typeName
  | .nonNull t => t.typeName

/-- An untyped AST node, as `getTypeNameFromType` sees its `any` argument:
a `kind` string, an optional `.type` child (the wrapper chain) and an
optional `.name.value`. -/
inductive RawNode where
  | mk (kind : String) (innerType : Option RawNode) (nameValue : Option String)

/-- `getTypeNameFromType` from the source: recursively follow the `.type`
chain while it is non-null; at the end the assertion demands a `NamedType`
(modelled as `none` = assertion failure / non-NamedType leaf) and the
result is `type.name.value`. -/
def getTypeNameFromType : RawNode → Option String
  | .mk kind inner nameValue =>
    match inner with
    | some t => getTypeNameFromType t
    | none => if kind = "NamedType" then nameValue else none

/-- Encoding of a parser-produced type node as the untyped node
`getTypeNameFromType` traverses. -/
def TypeNode.toRaw : TypeNode → RawNode
  | .named n => .mk "NamedType" none (some n)
  | .list t => .mk "ListType" (some t.toRaw) none
  | .nonNull t => .mk "NonNullType" (some t.toRaw) none

/-! ## Schema model (the relevant output of graphql-js buildSchema) -/

/-- The kind of a schema type, as classified by graphql-js predicates;
only `isObjectType` matters to the code. -/
inductive TypeKind where
  | object
  | interface
  | union
  | scalar
  | enum
  | inputObject
deriving DecidableEq, Repr

/-- A field of a schema type.  `astNodeType` is `field.astNode?.type`:
`none` models a field whose definition carries no AST node (e.g. built-in
introspection fields such as those of `__Schema`). -/
structure SchemaField where
  name : String
  astNodeType : Option TypeNode
deriving DecidableEq, Repr

/-- A named type of the built schema's type map together with its fields
(`type.getFields()`, meaningful for object types). -/
structure SchemaType where
  name : String
  kind : TypeKind
  fields : List SchemaField
deriving DecidableEq, Repr

/-- The built schema: its type map and the names of the root types
`getRootType` resolves for each operation kind (`none` when the schema
declares no root for that kind). -/
structure SchemaModel where
  typeMap : List SchemaType
  queryRoot : Option String
  mutationRoot : Option String
  subscriptionRoot : Option String
deriving DecidableEq, Repr

/-- `builtSchema.getRootType(definition.operation)`, reduced to the root
type's name (the code only uses `rootType.name`). -/
def SchemaModel.getRootType (s : SchemaModel) : OperationType → Option String
  | .query => s.queryRoot
  | .mutation => s.mutationRoot
  | .subscription => s.subscriptionRoot

/-- One entry of the `typeToFieldsMap` index: `{ field, type }`. -/
structure FieldEntry where
  field : String
  type : String
deriving DecidableEq, Repr

/-- `typeToFieldsMap`: for every object type of the schema's type map,
the fields that carry an astNode, each with its recursively unwrapped
return type name. -/
def typeToFieldsMap (schema : SchemaModel) : List (String × List FieldEntry) :=
  (schema.typeMap.filter (fun t => t.kind == TypeKind.object)).map (fun t =>
    (t.name,
      (t.fields.filter (fun f => f.astNodeType.isSome)).map (fun f =>
        { field := f.name
          -- the filter guarantees the astNode is present; the default is unreachable
          type := (f.astNodeType.map TypeNode.typeName).getD "" })))

/-- Property access `typeToFieldsMap[type]` (type names in a built schema
are unique, so first match is the only match). -/
def lookupType (index : List (String × List FieldEntry)) (typeName : String) :
    Option (List FieldEntry) :=
  (index.find? (fun p => p.1 == typeName)).map (fun p => p.2)

/-! ## Document AST -/

mutual
/-- One selection of a selection set: a field (with optional nested
selection set), an inline fragment (with optional type condition), or a
fragment spread. -/
inductive Selection where
  | field (name : String) (selectionSet : OptSelectionList)
  | inlineFragment (typeCondition : Option String) (selectionSet : SelectionList)
  | fragmentSpread (name : String)
deriving DecidableEq, Repr

/-- `selection.selectionSet`, which may be null on a field. -/
inductive OptSelectionList where
  | none
  | some (l : SelectionList)
deriving DecidableEq, Repr

/-- The selection list of a selection-set node. -/
inductive SelectionList where
  | nil
  | cons (s : Selection) (rest : SelectionList)
deriving DecidableEq, Repr
end

/-- A variable definition on an operation; `varType` is `variable.type`,
the declared type of the variable. -/
structure VariableDefinition where
  varType : TypeNode
deriving DecidableEq, Repr

/-- Encoding of a `VariableDefinition` node as the untyped node passed to
`getTypeNameFromType` (the node's `.type` is the declared type; its other
properties are not `.type`-chained). -/
def VariableDefinition.toRaw (v : VariableDefinition) : RawNode :=
  .mk "VariableDefinition" (some v.varType.toRaw) none

/-- A top-level definition of the parsed document.  `otherDefinition`
stands for any definition kind the extractor ignores (graphql-js `parse`
also accepts type-system definitions in a document). -/
inductive Definition where
  | operation (operation : OperationType) (variableDefinitions : List VariableDefinition)
      (selectionSet : SelectionList)
  | fragment (name : String) (typeCondition : String) (selectionSet : SelectionList)
  | otherDefinition
deriving DecidableEq, Repr

/-- The parsed document. -/
structure DocumentAst where
  definitions : List Definition
deriving DecidableEq, Repr

/-! ## The extractor -/

/-- `builtInScalars` from the source (a Set used only through `has`). -/
def builtInScalars : List String := ["Int", "Float", "String", "Boolean", "ID"]

/-- A work item of the DFS queue: `{ type, selectionSet }`. -/
structure Frame where
  type : String
  selectionSet : SelectionList
deriving DecidableEq, Repr

/-- The errors the function can raise: the `GraphQLError` thrown for an
operation kind with no schema root, and the assertion failure when no
traversal root was enqueued. -/
inductive ExtractError where
  | unsupportedOperation (message : String)
  | emptyDocument (message : String)
deriving DecidableEq, Repr

instance {ε α : Type _} [DecidableEq ε] [DecidableEq α] : DecidableEq (Except ε α) :=
  fun a b =>
    match a, b with
    | .error e, .error f =>
      if h : e = f then .isTrue (by rw [h]) else .isFalse (fun hc => h (Except.error.inj hc))
    | .error _, .ok _ => .isFalse (fun hc => Except.noConfusion hc)
    | .ok _, .error _ => .isFalse (fun hc => Except.noConfusion hc)
    | .ok x, .ok y =>
      if h : x = y then .isTrue (by rw [h]) else .isFalse (fun hc => h (Except.ok.inj hc))

/-- Walker state: the coordinate set and the work queue.  The queue is a
stack (JS push/pop at the array end); the list head is the stack top. -/
abbrev WalkState := Finset String × List Frame

/-- Dispatch on one selection, mirroring the body of the `forEach` inside
the while loop: fragment spreads are skipped; inline fragments push a
frame with their type condition (or the parent type when absent); a field
adds `type.fieldName` and, when it has a nested selection set and both
the type and the field resolve in the index, pushes a frame with the
field's declared return type. -/
def processSelection (index : List (String × List FieldEntry)) (type : String)
    (s : Selection) (st : WalkState) : WalkState :=
  match s with
  | .fragmentSpread _ => st
  | .inlineFragment typeCondition selectionSet =>
    match typeCondition with
    | Option.none => (st.1, ⟨type, selectionSet⟩ :: st.2)
    | Option.some c => (st.1, ⟨c, selectionSet⟩ :: st.2)
  | .field fieldName selectionSet =>
    let coords := insert (type ++ "." ++ fieldName) st.1
    match selectionSet with
    | .none => (coords, st.2)
    | .some ss =>
      match lookupType index type with
      | Option.none => (coords, st.2)
      | Option.some typeAttributes =>
        match typeAttributes.find? (fun e => e.field == fieldName) with
        | Option.none => (coords, st.2)
        | Option.some fieldType => (coords, ⟨fieldType.type, ss⟩ :: st.2)

/-- `selectionSet.selections.forEach(...)`: left-to-right fold of
`processSelection` over the selections. -/
def processSelections (index : List (String × List FieldEntry)) (type : String) :
    SelectionList → WalkState → WalkState
  | .nil, st => st
  | .cons s rest, st => processSelections index type rest (processSelection index type s st)

mutual
/-- Weight of one selection: its own node plus its nested selection set. -/
def selWeight : Selection → Nat
  | .field _ .none => 1
  | .field _ (.some ss) => 1 + listWeight ss
  | .inlineFragment _ ss => 1 + listWeight ss
  | .fragmentSpread _ => 1

/-- Weight of a selection list (positive, counting the set node itself). -/
def listWeight : SelectionList → Nat
  | .nil => 1
  | .cons s rest => selWeight s + listWeight rest
end

/-- Total weight of the pending work queue. -/
def queueWeight (q : List Frame) : Nat :=
  (q.map (fun f => listWeight f.selectionSet)).sum

theorem selWeight_pos (s : Selection) : 1 ≤ selWeight s := by
  cases s with
  | field _ o => cases o <;> simp [selWeight]
  | inlineFragment _ _ => simp [selWeight]
  | fragmentSpread _ => simp [selWeight]

theorem listWeight_pos (l : SelectionList) : 1 ≤ listWeight l := by
  cases l with
  | nil => simp [listWeight]
  | cons s rest => simp [listWeight]; have := selWeight_pos s; omega

theorem processSelection_weight (index : List (String × List FieldEntry)) (type : String)
    (s : Selection) (coords : Finset String) (q : List Frame) :
    queueWeight (processSelection index type s (coords, q)).2 + 1 ≤
      queueWeight q + selWeight s := by
  cases s with
  | fragmentSpread n => simp [processSelection, selWeight]
  | inlineFragment cond ss =>
    cases cond <;> simp [processSelection, selWeight, queueWeight] <;> omega
  | field n o =>
    cases o with
    | none => simp [processSelection, selWeight]
    | some ss =>
      cases h : lookupType index type with
      | none => simp [processSelection, selWeight, h]
      | some attrs =>
        cases h2 : attrs.find? (fun e => e.field == n) with
        | none => simp [processSelection, selWeight, h, h2]
        | some ft => simp [processSelection, selWeight, queueWeight, h, h2]; omega

theorem processSelections_weight (index : List (String × List FieldEntry)) (type : String) :
    (l : SelectionList) → ∀ (coords : Finset String) (q : List Frame),
    queueWeight (processSelections index type l (coords, q)).2 + 1 ≤
      queueWeight q + listWeight l
  | .nil, coords, q => by simp [processSelections, listWeight]
  | .cons s rest, coords, q => by
    have h1 := processSelection_weight index type s coords q
    have h2 := processSelections_weight index type rest
      (processSelection index type s (coords, q)).1
      (processSelection index type s (coords, q)).2
    rw [Prod.mk.eta] at h2
    simp only [processSelections, listWeight]
    omega

/-- The `while (queue.length > 0)` loop: pop the top frame, process its
selections, continue until the queue is empty; returns the coordinate
set. -/
def drainLoop (index : List (String × List FieldEntry)) :
    List Frame → Finset String → Finset String
  | [], coords => coords
  | f :: rest, coords =>
    drainLoop index
      (processSelections index f.type f.selectionSet (coords, rest)).2
      (processSelections index f.type f.selectionSet (coords, rest)).1
termination_by q _ => queueWeight q
decreasing_by
  simp_wf
  have h := processSelections_weight index f.type f.selectionSet coords rest
  have hq : queueWeight (f :: rest) = listWeight f.selectionSet + queueWeight rest := by
    simp [queueWeight]
  omega

/-- Fuel-indexed version of the loop, used to state that the loop always
finishes within `queueWeight` iterations. -/
def drainFuel (index : List (String × List FieldEntry)) :
    Nat → List Frame → Finset String → Option (Finset String)
  | _, [], coords => some coords
  | 0, _ :: _, _ => none
  | n + 1, f :: rest, coords =>
    drainFuel index n
      (processSelections index f.type f.selectionSet (coords, rest)).2
      (processSelections index f.type f.selectionSet (coords, rest)).1

/-- One variable declaration's contribution to the coordinate set:
add the unwrapped named type unless it is a built-in scalar. -/
def addVariableCoordinate (coords : Finset String) (variable_ : VariableDefinition) :
    Finset String :=
  let variableTypeName := variable_.varType.typeName
  if builtInScalars.contains variableTypeName then coords
  else insert variableTypeName coords

/-- Seeding of one top-level definition, mirroring the
`documentAst.definitions.forEach` body: an operation resolves its root
type (throwing the `GraphQLError` when the schema has none), pushes its
selection set, and records its non-built-in variable types; a fragment
definition pushes its type condition and selection set; any other
definition is ignored. -/
def seedDefinition (schema : SchemaModel) (st : Finset String × List Frame)
    (d : Definition) : Except ExtractError (Finset String × List Frame) :=
  match d with
  | .operation operation variableDefinitions selectionSet =>
    match schema.getRootType operation with
    | Option.none =>
      .error (.unsupportedOperation
        ("Schema is not configured to execute " ++ operation.opName ++ " operation."))
    | Option.some rootTypeName =>
      .ok (variableDefinitions.foldl addVariableCoordinate st.1,
        ⟨rootTypeName, selectionSet⟩ :: st.2)
  | .fragment _ typeCondition selectionSet =>
    .ok (st.1, ⟨typeCondition, selectionSet⟩ :: st.2)
  | .otherDefinition => .ok st

/-- Seeding of the whole document (the `forEach` over definitions; a
thrown error aborts the iteration). -/
def seedDocument (schema : SchemaModel) (doc : DocumentAst) :
    Except ExtractError (Finset String × List Frame) :=
  doc.definitions.foldlM (seedDefinition schema) (∅, [])

/-- The message of the `assert(queue.length > 0, ...)` guard. -/
def emptyDocumentMessage : String :=
  "Expected to find a query or mutation operation in the provided document"

/-- `extractSchemaCoordinates`, over the parsed document and built schema:
build the field index, seed the queue from the document's definitions
(raising for an unsupported operation kind), assert the queue is
non-empty, then drain the queue. -/
def extractSchemaCoordinates (doc : DocumentAst) (schema : SchemaModel) :
    Except ExtractError (Finset String) :=
  let index := typeToFieldsMap schema
  match seedDocument schema doc with
  | .error e => .error e
  | .ok (schemaCoordinates, queue) =>
    if queue.isEmpty then .error (.emptyDocument emptyDocumentMessage)
    else .ok (drainLoop index queue schemaCoordinates)

/-! ## Spread erasure (for the fragment-spread invariance statement) -/

mutual
/-- Remove every fragment-spread selection from a selection list,
recursively in nested selection sets; fields and inline fragments are
kept. -/
def eraseSpreadsList : SelectionList → SelectionList
  | .nil => .nil
  | .cons s rest =>
    match s with
    | .fragmentSpread _ => eraseSpreadsList rest
    | .field n sub => .cons (.field n (eraseSpreadsOpt sub)) (eraseSpreadsList rest)
    | .inlineFragment c ss => .cons (.inlineFragment c (eraseSpreadsList ss)) (eraseSpreadsList rest)

/-- Spread erasure under an optional selection set. -/
def eraseSpreadsOpt : OptSelectionList → OptSelectionList
  | .none => .none
  | .some l => .some (eraseSpreadsList l)
end

/-- Spread erasure on a work-queue frame. -/
def eraseSpreadsFrame (f : Frame) : Frame :=
  ⟨f.type, eraseSpreadsList f.selectionSet⟩

/-- Spread erasure on a top-level definition. -/
def eraseSpreadsDefinition : Definition → Definition
  | .operation op vars sel => .operation op vars (eraseSpreadsList sel)
  | .fragment n c sel => .fragment n c (eraseSpreadsList sel)
  | .otherDefinition => .otherDefinition

/-- Spread erasure on a whole document. -/
def eraseSpreadsDocument (doc : DocumentAst) : DocumentAst :=
  ⟨doc.definitions.map eraseSpreadsDefinition⟩

/-! ## Concrete fixtures (modelled on testing/pets.schema.graphql) -/

/-- A small schema shaped like the package's pets test schema: object
roots `Root` and `Mutation`, object types `Human`, `ContactDetails`,
`Dog`, `Cat`, an interface `Animal`, a union `Pet`, and no subscription
root. -/
def petsSchema : SchemaModel :=
  { typeMap := [
      ⟨"Root", .object, [⟨"animalOwner", some (.named "Human")⟩,
        ⟨"allSpecies", some (.list (.named "Animal"))⟩,
        ⟨"pets", some (.list (.named "Pet"))⟩]⟩,
      ⟨"Mutation", .object, [⟨"addCat", some (.named "Cat")⟩,
        ⟨"addVet", some (.nonNull (.named "Boolean"))⟩]⟩,
      ⟨"Human", .object, [⟨"name", some (.named "String")⟩,
        ⟨"contactDetails", some (.named "ContactDetails")⟩]⟩,
      ⟨"ContactDetails", .object, [⟨"email", some (.named "String")⟩]⟩,
      ⟨"Animal", .interface, [⟨"name", some (.named "String")⟩]⟩,
      ⟨"Pet", .union, []⟩,
      ⟨"Dog", .object, [⟨"name", some (.named "String")⟩,
        ⟨"breed", some (.named "String")⟩]⟩,
      ⟨"Cat", .object, [⟨"name", some (.named "String")⟩,
        ⟨"favoriteMilkBrand", some (.named "String")⟩]⟩],
    queryRoot := some "Root", mutationRoot := some "Mutation", subscriptionRoot := none }

/-- The document of the basic query test:
a query selecting animalOwner with name and contactDetails.email. -/
def basicQueryDoc : DocumentAst :=
  ⟨[.operation .query []
    (.cons (.field "animalOwner" (.some
      (.cons (.field "name" .none)
      (.cons (.field "contactDetails" (.some
        (.cons (.field "email" .none) .nil)))
      .nil)))) .nil)]⟩

/-- A document whose only top-level definition is a fragment definition
(no operation definitions at all). -/
def fragmentOnlyDoc : DocumentAst :=
  ⟨[.fragment "doggoDetails" "Dog" (.cons (.field "breed" .none) .nil)]⟩

/-- A document whose only operation is a subscription. -/
def subscriptionDoc : DocumentAst :=
  ⟨[.operation .subscription [] (.cons (.field "bar" .none) .nil)]⟩

/-- A document containing only a definition kind the extractor ignores
(e.g. a type-system definition in the parsed document). -/
def otherOnlyDoc : DocumentAst := ⟨[.otherDefinition]⟩

/-- A query declaring a variable whose named type exists nowhere in the
pets schema. -/
def customInputDoc : DocumentAst :=
  ⟨[.operation .query [⟨.nonNull (.named "CustomInput")⟩]
    (.cons (.field "animalOwner" .none) .nil)]⟩

/-- The AddVet mutation document: one non-scalar variable and one
built-in-scalar variable. -/
def addVetDoc : DocumentAst :=
  ⟨[.operation .mutation [⟨.nonNull (.named "VetDetailsInput")⟩, ⟨.nonNull (.named "String")⟩]
    (.cons (.field "addVet" .none) .nil)]⟩

/-! ## Termination of the loop: the fuel bound is sufficient -/

theorem queueWeight_nil : queueWeight [] = 0 := by simp [queueWeight]

theorem queueWeight_cons (f : Frame) (q : List Frame) :
    queueWeight (f :: q) = listWeight f.selectionSet + queueWeight q := by
  simp [queueWeight]

theorem drainFuel_sufficient (index : List (String × List FieldEntry)) :
    ∀ (n : Nat) (q : List Frame) (coords : Finset String), queueWeight q ≤ n →
    drainFuel index n q coords = some (drainLoop index q coords) := by
  intro n
  induction n with
  | zero =>
    intro q coords h
    cases q with
    | nil => simp [drainFuel, drainLoop]
    | cons f rest =>
      rw [queueWeight_cons] at h
      have := listWeight_pos f.selectionSet
      omega
  | succ n ih =>
    intro q coords h
    cases q with
    | nil => simp [drainFuel, drainLoop]
    | cons f rest =>
      have hw := processSelections_weight index f.type f.selectionSet coords rest
      rw [queueWeight_cons] at h
      rw [drainFuel, drainLoop]
      exact ih _ _ (by omega)

/-- Executable form of the extractor: the loop run with `queueWeight`
fuel (shown sufficient by `drainFuel_sufficient`). -/
def extractSchemaCoordinatesFuel (doc : DocumentAst) (schema : SchemaModel) :
    Except ExtractError (Finset String) :=
  let index := typeToFieldsMap schema
  match seedDocument schema doc with
  | .error e => .error e
  | .ok (schemaCoordinates, queue) =>
    if queue.isEmpty then .error (.emptyDocument emptyDocumentMessage)
    else .ok ((drainFuel index (queueWeight queue) queue schemaCoordinates).getD schemaCoordinates)

theorem extract_eq_fuel (doc : DocumentAst) (schema : SchemaModel) :
    extractSchemaCoordinates doc schema = extractSchemaCoordinatesFuel doc schema := by
  unfold extractSchemaCoordinates extractSchemaCoordinatesFuel
  cases seedDocument schema doc with
  | error e => rfl
  | ok st =>
    obtain ⟨coords, queue⟩ := st
    by_cases h : queue.isEmpty
    · simp [h]
    · simp [h, drainFuel_sufficient (typeToFieldsMap schema) (queueWeight queue) queue coords
        (le_refl _)]

/-! ## Monotonicity: the walker only ever inserts coordinates -/

theorem processSelection_coords_mono (index : List (String × List FieldEntry)) (type : String)
    (s : Selection) (coords : Finset String) (q : List Frame) :
    coords ⊆ (processSelection index type s (coords, q)).1 := by
  cases s with
  | fragmentSpread n => simp [processSelection]
  | inlineFragment c ss => cases c <;> simp [processSelection]
  | field n sub =>
    cases sub with
    | none => simp [processSelection]
    | some ss =>
      cases h : lookupType index type with
      | none => simp [processSelection, h]
      | some attrs =>
        cases h2 : attrs.find? (fun e => e.field == n) with
        | none => simp [processSelection, h, h2]
        | some ft => simp [processSelection, h, h2]

theorem processSelections_coords_mono (index : List (String × List FieldEntry)) (type : String) :
    (l : SelectionList) → ∀ (coords : Finset String) (q : List Frame),
    coords ⊆ (processSelections index type l (coords, q)).1
  | .nil, coords, q => by simp [processSelections]
  | .cons s rest, coords, q => by
    have h1 := processSelection_coords_mono index type s coords q
    have h2 := processSelections_coords_mono index type rest
      (processSelection index type s (coords, q)).1
      (processSelection index type s (coords, q)).2
    rw [Prod.mk.eta] at h2
    simp only [processSelections]
    exact h1.trans h2

theorem drainLoop_coords_mono (index : List (String × List FieldEntry)) :
    ∀ (n : Nat) (q : List Frame) (coords : Finset String), queueWeight q ≤ n →
    coords ⊆ drainLoop index q coords := by
  intro n
  induction n with
  | zero =>
    intro q coords h
    cases q with
    | nil => simp [drainLoop]
    | cons f rest =>
      rw [queueWeight_cons] at h
      have := listWeight_pos f.selectionSet
      omega
  | succ n ih =>
    intro q coords h
    cases q with
    | nil => simp [drainLoop]
    | cons f rest =>
      rw [queueWeight_cons] at h
      have hw := processSelections_weight index f.type f.selectionSet coords rest
      have h1 := processSelections_coords_mono index f.type f.selectionSet coords rest
      rw [drainLoop]
      exact h1.trans (ih _ _ (by omega))

/-! ## Variable coordinates -/

theorem mem_foldl_addVariableCoordinate :
    ∀ (vars : List VariableDefinition) (coords : Finset String) (x : String),
    x ∈ vars.foldl addVariableCoordinate coords ↔
      x ∈ coords ∨ ∃ v ∈ vars, x = v.varType.typeName ∧
        builtInScalars.contains v.varType.typeName = false := by
  intro vars
  induction vars with
  | nil => simp
  | cons v rest ih =>
    intro coords x
    simp only [List.foldl_cons, ih, List.mem_cons]
    cases h : builtInScalars.contains v.varType.typeName with
    | true =>
      rw [show addVariableCoordinate coords v = coords from by
        simp only [addVariableCoordinate]; rw [h]; simp]
      constructor
      · rintro (hx | ⟨w, hw, hxx⟩)
        · exact Or.inl hx
        · exact Or.inr ⟨w, Or.inr hw, hxx⟩
      · rintro (hx | ⟨w, (rfl | hw), hxx⟩)
        · exact Or.inl hx
        · rw [hxx.2] at h; exact absurd h (by simp)
        · exact Or.inr ⟨w, hw, hxx⟩
    | false =>
      rw [show addVariableCoordinate coords v = insert v.varType.typeName coords from by
        simp only [addVariableCoordinate]; rw [h]; simp]
      simp only [Finset.mem_insert]
      constructor
      · rintro ((rfl | hx) | ⟨w, hw, hxx⟩)
        · exact Or.inr ⟨v, Or.inl rfl, rfl, h⟩
        · exact Or.inl hx
        · exact Or.inr ⟨w, Or.inr hw, hxx⟩
      · rintro (hx | ⟨w, (rfl | hw), hxx⟩)
        · exact Or.inl (Or.inr hx)
        · exact Or.inl (Or.inl hxx.1)
        · exact Or.inr ⟨w, hw, hxx⟩

/-! ## Fragment spreads are inert: erasing them changes nothing -/

theorem processSelections_erase (index : List (String × List FieldEntry)) (type : String) :
    (l : SelectionList) → ∀ (coords : Finset String) (q : List Frame),
    processSelections index type (eraseSpreadsList l) (coords, List.map eraseSpreadsFrame q) =
      ((processSelections index type l (coords, q)).1,
       List.map eraseSpreadsFrame (processSelections index type l (coords, q)).2)
  | .nil, coords, q => by simp [processSelections, eraseSpreadsList]
  | .cons s rest, coords, q => by
    cases s with
    | fragmentSpread n =>
      have ih := processSelections_erase index type rest coords q
      simp only [eraseSpreadsList, processSelections, processSelection]
      exact ih
    | field n sub =>
      cases sub with
      | none =>
        have ih := processSelections_erase index type rest (insert (type ++ "." ++ n) coords) q
        simp only [eraseSpreadsList, eraseSpreadsOpt, processSelections, processSelection]
        exact ih
      | some ss =>
        cases h : lookupType index type with
        | none =>
          have ih := processSelections_erase index type rest (insert (type ++ "." ++ n) coords) q
          simp only [eraseSpreadsList, eraseSpreadsOpt, processSelections, processSelection, h]
          exact ih
        | some attrs =>
          cases h2 : attrs.find? (fun e => e.field == n) with
          | none =>
            have ih := processSelections_erase index type rest
              (insert (type ++ "." ++ n) coords) q
            simp only [eraseSpreadsList, eraseSpreadsOpt, processSelections, processSelection,
              h, h2]
            exact ih
          | some ft =>
            have ih := processSelections_erase index type rest
              (insert (type ++ "." ++ n) coords) (⟨ft.type, ss⟩ :: q)
            simp only [eraseSpreadsList, eraseSpreadsOpt, processSelections, processSelection,
              h, h2, List.map_cons, eraseSpreadsFrame] at *
            exact ih
    | inlineFragment c ss =>
      cases c with
      | none =>
        have ih := processSelections_erase index type rest coords (⟨type, ss⟩ :: q)
        simp only [eraseSpreadsList, processSelections, processSelection, List.map_cons,
          eraseSpreadsFrame] at *
        exact ih
      | some cnd =>
        have ih := processSelections_erase index type rest coords (⟨cnd, ss⟩ :: q)
        simp only [eraseSpreadsList, processSelections, processSelection, List.map_cons,
          eraseSpreadsFrame] at *
        exact ih

theorem drainLoop_erase (index : List (String × List FieldEntry)) :
    ∀ (n : Nat) (q : List Frame) (coords : Finset String), queueWeight q ≤ n →
    drainLoop index (List.map eraseSpreadsFrame q) coords = drainLoop index q coords := by
  intro n
  induction n with
  | zero =>
    intro q coords h
    cases q with
    | nil => simp
    | cons f rest =>
      rw [queueWeight_cons] at h
      have := listWeight_pos f.selectionSet
      omega
  | succ n ih =>
    intro q coords h
    cases q with
    | nil => simp
    | cons f rest =>
      obtain ⟨ft, fss⟩ := f
      rw [queueWeight_cons] at h
      have hw := processSelections_weight index ft fss coords rest
      have hsim := processSelections_erase index ft fss coords rest
      rw [List.map_cons,
        show eraseSpreadsFrame ⟨ft, fss⟩ = ⟨ft, eraseSpreadsList fss⟩ from rfl,
        drainLoop]
      simp only [hsim]
      rw [ih _ _ (by simp only [queueWeight_cons] at h ⊢; omega)]
      conv_rhs => rw [drainLoop]

theorem seedDefinition_erase (schema : SchemaModel) (d : Definition) (coords : Finset String)
    (q : List Frame) :
    seedDefinition schema (coords, List.map eraseSpreadsFrame q) (eraseSpreadsDefinition d) =
      Except.map (fun st => (st.1, List.map eraseSpreadsFrame st.2))
        (seedDefinition schema (coords, q) d) := by
  cases d with
  | operation op vars sel =>
    cases h : schema.getRootType op with
    | none => simp [seedDefinition, eraseSpreadsDefinition, h, Except.map]
    | some root => simp [seedDefinition, eraseSpreadsDefinition, h, Except.map, eraseSpreadsFrame]
  | fragment n c sel => simp [seedDefinition, eraseSpreadsDefinition, Except.map, eraseSpreadsFrame]
  | otherDefinition => simp [seedDefinition, eraseSpreadsDefinition, Except.map]

theorem foldlM_seed_erase (schema : SchemaModel) :
    ∀ (defs : List Definition) (coords : Finset String) (q : List Frame),
    (defs.map eraseSpreadsDefinition).foldlM (seedDefinition schema)
        (coords, List.map eraseSpreadsFrame q) =
      Except.map (fun st => (st.1, List.map eraseSpreadsFrame st.2))
        (defs.foldlM (seedDefinition schema) (coords, q)) := by
  intro defs
  induction defs with
  | nil => intro coords q; rfl
  | cons d rest ih =>
    intro coords q
    simp only [List.map_cons, List.foldlM_cons]
    cases hd : seedDefinition schema (coords, q) d with
    | error e =>
      rw [seedDefinition_erase, hd]
      rfl
    | ok st =>
      obtain ⟨c1, q1⟩ := st
      rw [seedDefinition_erase, hd]
      exact ih c1 q1

/-! ## Seeding characterizations -/

theorem seedDefinition_error_inv (schema : SchemaModel) (st : Finset String × List Frame)
    (d : Definition) (e : ExtractError) (h : seedDefinition schema st d = .error e) :
    ∃ op vars sel, d = Definition.operation op vars sel ∧ schema.getRootType op = none ∧
      e = .unsupportedOperation
        ("Schema is not configured to execute " ++ op.opName ++ " operation.") := by
  cases d with
  | operation op vars sel =>
    cases hr : schema.getRootType op with
    | none =>
      refine ⟨op, vars, sel, rfl, hr, ?_⟩
      simp [seedDefinition, hr] at h
      exact h.symm
    | some root => simp [seedDefinition, hr] at h
  | fragment n tc sel => simp [seedDefinition] at h
  | otherDefinition => simp [seedDefinition] at h

theorem foldlM_seed_ok (schema : SchemaModel) :
    ∀ (defs : List Definition) (st : Finset String × List Frame),
    (∀ d ∈ defs, ∀ op vars sel, d = Definition.operation op vars sel →
      (schema.getRootType op).isSome) →
    ∃ st', defs.foldlM (seedDefinition schema) st = .ok st' := by
  intro defs
  induction defs with
  | nil => intro st h; exact ⟨st, rfl⟩
  | cons d rest ih =>
    intro st h
    have htail : ∀ d ∈ rest, ∀ op vars sel, d = Definition.operation op vars sel →
        (schema.getRootType op).isSome :=
      fun d hd => h d (List.mem_cons_of_mem _ hd)
    cases d with
    | operation op vars sel =>
      have hop := h _ (List.mem_cons_self _ _) op vars sel rfl
      cases hr : schema.getRootType op with
      | none => rw [hr] at hop; simp at hop
      | some root =>
        simp only [List.foldlM_cons]
        rw [show seedDefinition schema st (.operation op vars sel) =
            .ok (vars.foldl addVariableCoordinate st.1, ⟨root, sel⟩ :: st.2) from by
          simp [seedDefinition, hr]]
        exact ih _ htail
    | fragment n tc sel =>
      simp only [List.foldlM_cons]
      rw [show seedDefinition schema st (.fragment n tc sel) =
          .ok (st.1, ⟨tc, sel⟩ :: st.2) from rfl]
      exact ih _ htail
    | otherDefinition =>
      simp only [List.foldlM_cons]
      rw [show seedDefinition schema st .otherDefinition = .ok st from rfl]
      exact ih _ htail

theorem foldlM_seed_error (schema : SchemaModel) :
    ∀ (defs : List Definition) (st : Finset String × List Frame),
    (∃ d ∈ defs, ∃ op vars sel, d = Definition.operation op vars sel ∧
      schema.getRootType op = none) →
    ∃ op, schema.getRootType op = none ∧
      (∃ d ∈ defs, ∃ vars sel, d = Definition.operation op vars sel) ∧
      defs.foldlM (seedDefinition schema) st =
        .error (.unsupportedOperation
          ("Schema is not configured to execute " ++ op.opName ++ " operation.")) := by
  intro defs
  induction defs with
  | nil => rintro st ⟨d, hd, _⟩; simp at hd
  | cons d rest ih =>
    rintro st ⟨d0, hd0, op, vars, sel, hdef, hnone⟩
    cases hd : seedDefinition schema st d with
    | error e =>
      obtain ⟨op1, vars1, sel1, hdef1, hnone1, he⟩ := seedDefinition_error_inv schema st d e hd
      refine ⟨op1, hnone1, ⟨d, List.mem_cons_self _ _, vars1, sel1, hdef1⟩, ?_⟩
      simp only [List.foldlM_cons, hd, he]
      rfl
    | ok st1 =>
      rcases List.mem_cons.mp hd0 with rfl | hrest
      · rw [hdef] at hd
        simp [seedDefinition, hnone] at hd
      · obtain ⟨op1, hnone1, ⟨d1, hd1, vars1, sel1, hdef1⟩, heq⟩ :=
          ih st1 ⟨d0, hrest, op, vars, sel, hdef, hnone⟩
        refine ⟨op1, hnone1, ⟨d1, List.mem_cons_of_mem _ hd1, vars1, sel1, hdef1⟩, ?_⟩
        simp only [List.foldlM_cons, hd]
        exact heq

theorem foldlM_seed_error_inv (schema : SchemaModel) :
    ∀ (defs : List Definition) (st : Finset String × List Frame) (e : ExtractError),
    defs.foldlM (seedDefinition schema) st = .error e →
    ∃ m, e = ExtractError.unsupportedOperation m := by
  intro defs
  induction defs with
  | nil => intro st e h; simp at h; exact absurd h (by rintro ⟨⟩)
  | cons d rest ih =>
    intro st e h
    simp only [List.foldlM_cons] at h
    cases hd : seedDefinition schema st d with
    | error e1 =>
      rw [hd] at h
      obtain ⟨_, _, _, _, _, he⟩ := seedDefinition_error_inv schema st d e1 hd
      cases h
      exact ⟨_, he⟩
    | ok st1 =>
      rw [hd] at h
      exact ih st1 e h

theorem foldlM_seed_queue (schema : SchemaModel) :
    ∀ (defs : List Definition) (coords : Finset String) (q : List Frame)
      (c' : Finset String) (q' : List Frame),
    defs.foldlM (seedDefinition schema) (coords, q) = .ok (c', q') →
    ∃ pushed, q' = pushed ++ q ∧
      (pushed = [] ↔ ∀ d ∈ defs,
        (∀ op vars sel, d ≠ Definition.operation op vars sel) ∧
        (∀ n tc sel, d ≠ Definition.fragment n tc sel)) := by
  intro defs
  induction defs with
  | nil =>
    intro coords q c' q' h
    simp only [List.foldlM_nil] at h
    cases h
    exact ⟨[], rfl, by simp⟩
  | cons d rest ih =>
    intro coords q c' q' h
    simp only [List.foldlM_cons] at h
    cases d with
    | operation op vars sel =>
      cases hr : schema.getRootType op with
      | none => rw [show seedDefinition schema (coords, q) (.operation op vars sel) =
          .error (.unsupportedOperation
            ("Schema is not configured to execute " ++ op.opName ++ " operation.")) from by
            simp [seedDefinition, hr]] at h
                cases h
      | some root =>
        rw [show seedDefinition schema (coords, q) (.operation op vars sel) =
            .ok (vars.foldl addVariableCoordinate coords, ⟨root, sel⟩ :: q) from by
          simp [seedDefinition, hr]] at h
        obtain ⟨pushed, hpq, hiff⟩ := ih _ _ _ _ h
        refine ⟨pushed ++ [⟨root, sel⟩], by simp [hpq], ?_⟩
        simp only [List.append_eq_nil, List.cons_ne_self]
        constructor
        · rintro ⟨-, h2⟩; cases h2
        · intro hall
          exact absurd rfl ((hall _ (List.mem_cons_self _ _)).1 op vars sel)
    | fragment n tc sel =>
      rw [show seedDefinition schema (coords, q) (.fragment n tc sel) =
          .ok (coords, ⟨tc, sel⟩ :: q) from rfl] at h
      obtain ⟨pushed, hpq, hiff⟩ := ih _ _ _ _ h
      refine ⟨pushed ++ [⟨tc, sel⟩], by simp [hpq], ?_⟩
      simp only [List.append_eq_nil, List.cons_ne_self]
      constructor
      · rintro ⟨-, h2⟩; cases h2
      · intro hall
        exact absurd rfl ((hall _ (List.mem_cons_self _ _)).2 n tc sel)
    | otherDefinition =>
      rw [show seedDefinition schema (coords, q) .otherDefinition = .ok (coords, q) from rfl] at h
      obtain ⟨pushed, hpq, hiff⟩ := ih _ _ _ _ h
      refine ⟨pushed, hpq, ?_⟩
      rw [hiff, List.forall_mem_cons]
      simp

theorem seedDefinition_coords_mono (schema : SchemaModel) (st : Finset String × List Frame)
    (d : Definition) (c1 : Finset String) (q1 : List Frame)
    (h : seedDefinition schema st d = .ok (c1, q1)) : st.1 ⊆ c1 := by
  cases d with
  | operation op vars sel =>
    cases hr : schema.getRootType op with
    | none => simp [seedDefinition, hr] at h
    | some root =>
      simp only [seedDefinition, hr] at h
      cases h
      intro x hx
      exact (mem_foldl_addVariableCoordinate vars st.1 x).mpr (Or.inl hx)
  | fragment n tc sel => cases h; exact Finset.Subset.refl _
  | otherDefinition => cases h; exact Finset.Subset.refl _

theorem foldlM_seed_coords_mono (schema : SchemaModel) :
    ∀ (defs : List Definition) (st : Finset String × List Frame)
      (c' : Finset String) (q' : List Frame),
    defs.foldlM (seedDefinition schema) st = .ok (c', q') → st.1 ⊆ c' := by
  intro defs
  induction defs with
  | nil => intro st c' q' h; cases h; exact Finset.Subset.refl _
  | cons d rest ih =>
    intro st c' q' h
    simp only [List.foldlM_cons] at h
    cases hd : seedDefinition schema st d with
    | error e => rw [hd] at h; cases h
    | ok st1 =>
      rw [hd] at h
      exact (seedDefinition_coords_mono schema st d st1.1 st1.2
        (by rw [hd])).trans (ih st1 c' q' h)

theorem foldlM_seed_var_mem (schema : SchemaModel) :
    ∀ (defs : List Definition) (coords : Finset String) (q : List Frame)
      (c' : Finset String) (q' : List Frame)
      (op : OperationType) (vars : List VariableDefinition) (sel : SelectionList),
    defs.foldlM (seedDefinition schema) (coords, q) = .ok (c', q') →
    Definition.operation op vars sel ∈ defs →
    ∀ v ∈ vars, builtInScalars.contains v.varType.typeName = false →
    v.varType.typeName ∈ c' := by
  intro defs
  induction defs with
  | nil => intro _ _ _ _ _ _ _ _ hmem; simp at hmem
  | cons d rest ih =>
    intro coords q c' q' op vars sel h hmem v hv hns
    simp only [List.foldlM_cons] at h
    cases hd : seedDefinition schema (coords, q) d with
    | error e => rw [hd] at h; cases h
    | ok st1 =>
      rw [hd] at h
      rcases List.mem_cons.mp hmem with rfl | hrest
      · cases hr : schema.getRootType op with
        | none => simp [seedDefinition, hr] at hd
        | some root =>
          simp only [seedDefinition, hr] at hd
          have hst1 : st1.1 = vars.foldl addVariableCoordinate coords := by
            cases hd; rfl
          have hmem1 : v.varType.typeName ∈ st1.1 := by
            rw [hst1]
            exact (mem_foldl_addVariableCoordinate vars coords _).mpr
              (Or.inr ⟨v, hv, rfl, hns⟩)
          exact foldlM_seed_coords_mono schema rest st1 c' q'
            (by rw [← Prod.mk.eta (p := st1)] at h; exact h) hmem1
      · exact ih st1.1 st1.2 c' q' op vars sel
          (by rw [Prod.mk.eta]; exact h) hrest v hv hns

/-! ## Unfolded form of the extractor and raw-node agreement helpers -/

theorem extract_spec (doc : DocumentAst) (schema : SchemaModel) :
    extractSchemaCoordinates doc schema =
      match doc.definitions.foldlM (seedDefinition schema) (∅, []) with
      | .error e => .error e
      | .ok (schemaCoordinates, queue) =>
        if queue.isEmpty then .error (.emptyDocument emptyDocumentMessage)
        else .ok (drainLoop (typeToFieldsMap schema) queue schemaCoordinates) := rfl

theorem toRaw_getTypeName (t : TypeNode) : getTypeNameFromType t.toRaw = some t.typeName := by
  induction t with
  | named n => simp [TypeNode.toRaw, getTypeNameFromType, TypeNode.typeName]
  | list t ih => simp [TypeNode.toRaw, getTypeNameFromType, TypeNode.typeName, ih]
  | nonNull t ih => simp [TypeNode.toRaw, getTypeNameFromType, TypeNode.typeName, ih]

theorem varDef_toRaw_getTypeName (v : VariableDefinition) :
    getTypeNameFromType v.toRaw = some v.varType.typeName := by
  simp only [VariableDefinition.toRaw, getTypeNameFromType]
  exact toRaw_getTypeName v.varType

/-! ## Claim theorems -/

/-- C3: a field selection walked under a frame with type T always adds the
coordinate `T.fieldName`, even when T is absent from the schema index or
the field is absent from T's field list; no error is raised, and when the
field carries a nested selection set but T or the field cannot be resolved
in the index, no child frame is enqueued (the queue is returned unchanged),
so nothing nested under that field is ever walked. -/
theorem field_coordinate_tolerance (index : List (String × List FieldEntry)) (type : String)
    (fieldName : String) (selectionSet : OptSelectionList) (coords : Finset String)
    (q : List Frame) :
    (processSelection index type (.field fieldName selectionSet) (coords, q)).1 =
      insert (type ++ "." ++ fieldName) coords ∧
    (∀ ss, selectionSet = .some ss →
      (lookupType index type = none ∨
        ∃ attrs, lookupType index type = some attrs ∧
          attrs.find? (fun e => e.field == fieldName) = none) →
      processSelection index type (.field fieldName selectionSet) (coords, q) =
        (insert (type ++ "." ++ fieldName) coords, q)) := by
  constructor
  · cases selectionSet with
    | none => rfl
    | some ss =>
      cases h : lookupType index type with
      | none => simp [processSelection, h]
      | some attrs =>
        cases h2 : attrs.find? (fun e => e.field == fieldName) with
        | none => simp [processSelection, h, h2]
        | some ft => simp [processSelection, h, h2]
  · rintro ss rfl h
    rcases h with h | ⟨attrs, h, h2⟩
    · simp [processSelection, h]
    · simp [processSelection, h, h2]

/-- C3 witness: an unresolvable field with a nested selection set adds only
its own coordinate and enqueues nothing. -/
theorem field_coordinate_tolerance_witness :
    processSelection [] "Snake" (.field "skin" (.some (.cons (.field "color" .none) .nil)))
      (∅, []) = ({"Snake.skin"}, []) := by
  have h := (field_coordinate_tolerance [] "Snake" "skin"
    (.some (.cons (.field "color" .none) .nil)) ∅ []).2
    (.cons (.field "color" .none) .nil) rfl (Or.inl rfl)
  exact h

/-- C4: fragment-spread selections neither add a coordinate nor enqueue
work (the walker state is untouched); every top-level fragment definition
is seeded as an independent traversal root with its type condition as the
frame type; and erasing every fragment spread from a document leaves the
extraction result unchanged, so the coordinates of each fragment appear
regardless of how often (or whether) it is spread. -/
theorem fragmentSpread_inert :
    (∀ (index : List (String × List FieldEntry)) (type name : String) (st : WalkState),
      processSelection index type (.fragmentSpread name) st = st) ∧
    (∀ (schema : SchemaModel) (coords : Finset String) (q : List Frame)
      (name typeCondition : String) (sel : SelectionList),
      seedDefinition schema (coords, q) (.fragment name typeCondition sel) =
        .ok (coords, ⟨typeCondition, sel⟩ :: q)) ∧
    (∀ (doc : DocumentAst) (schema : SchemaModel),
      extractSchemaCoordinates (eraseSpreadsDocument doc) schema =
        extractSchemaCoordinates doc schema) := by
  refine ⟨fun index type name st => rfl, fun schema coords q name tc sel => rfl, ?_⟩
  intro doc schema
  have hseed := foldlM_seed_erase schema doc.definitions ∅ []
  simp only [List.map_nil] at hseed
  rw [extract_spec, extract_spec]
  rw [show (eraseSpreadsDocument doc).definitions = doc.definitions.map eraseSpreadsDefinition
    from rfl]
  rw [hseed]
  cases hsd : doc.definitions.foldlM (seedDefinition schema) (∅, []) with
  | error e => rfl
  | ok st =>
    obtain ⟨c, q⟩ := st
    have hdrain := drainLoop_erase (typeToFieldsMap schema) (queueWeight q) q c (le_refl _)
    have hempty : (List.map eraseSpreadsFrame q).isEmpty = q.isEmpty := by
      cases q <;> rfl
    show (if (List.map eraseSpreadsFrame q).isEmpty
        then Except.error (ExtractError.emptyDocument emptyDocumentMessage)
        else Except.ok (drainLoop (typeToFieldsMap schema) (List.map eraseSpreadsFrame q) c)) =
      (if q.isEmpty then Except.error (ExtractError.emptyDocument emptyDocumentMessage)
        else Except.ok (drainLoop (typeToFieldsMap schema) q c))
    rw [hempty, hdrain]

/-- C5: an inline fragment pushes a frame whose type is its type condition
when it has one and the parent frame's type when it does not, in both
cases with the inline fragment's selection set, and it adds no
coordinate. -/
theorem inlineFragment_frame (index : List (String × List FieldEntry)) (type : String)
    (typeCondition : Option String) (ss : SelectionList) (coords : Finset String)
    (q : List Frame) :
    processSelection index type (.inlineFragment typeCondition ss) (coords, q) =
      (coords, ⟨typeCondition.getD type, ss⟩ :: q) := by
  cases typeCondition <;> rfl

/-- C8: the queue-draining traversal terminates: run with `queueWeight q`
fuel, the loop empties the queue and produces exactly the result of the
unbounded while loop, and consequently the whole extractor agrees with
its fuel-bounded executable form on every input. -/
theorem traversal_terminates :
    (∀ (index : List (String × List FieldEntry)) (q : List Frame) (coords : Finset String),
      drainFuel index (queueWeight q) q coords = some (drainLoop index q coords)) ∧
    (∀ (doc : DocumentAst) (schema : SchemaModel),
      extractSchemaCoordinates doc schema = extractSchemaCoordinatesFuel doc schema) :=
  ⟨fun index q coords => drainFuel_sufficient index (queueWeight q) q coords (le_refl _),
   extract_eq_fuel⟩

/-- C10: the untyped `.type`-chain recursion of getTypeNameFromType is
total on parser-produced nodes: on the raw encoding of any type node (as
reached from a field declaration) and of any variable definition it
reaches a NamedType after finitely many steps and returns its name — the
internal assertion never fails. -/
theorem getTypeNameFromType_total_on_parser_nodes :
    (∀ t : TypeNode, getTypeNameFromType t.toRaw = some t.typeName) ∧
    (∀ v : VariableDefinition, getTypeNameFromType v.toRaw = some v.varType.typeName) :=
  ⟨toRaw_getTypeName, varDef_toRaw_getTypeName⟩

/-- C1: if the document contains an operation definition whose kind has no
root type in the schema, extraction fails with the unsupported-operation
error whose message names an offending operation kind (and returns no
coordinate set); conversely, when every operation definition's kind has a
declared root type, that error is never raised. -/
theorem extract_unsupported_operation (doc : DocumentAst) (schema : SchemaModel) :
    ((∃ d ∈ doc.definitions, ∃ op vars sel, d = Definition.operation op vars sel ∧
        schema.getRootType op = none) →
      ∃ op, schema.getRootType op = none ∧
        (∃ d ∈ doc.definitions, ∃ vars sel, d = Definition.operation op vars sel) ∧
        extractSchemaCoordinates doc schema =
          .error (.unsupportedOperation
            ("Schema is not configured to execute " ++ op.opName ++ " operation."))) ∧
    ((∀ d ∈ doc.definitions, ∀ op vars sel, d = Definition.operation op vars sel →
        (schema.getRootType op).isSome) →
      ∀ m, extractSchemaCoordinates doc schema ≠
        .error (.unsupportedOperation m)) := by
  constructor
  · intro h
    obtain ⟨op, hnone, hmem, heq⟩ := foldlM_seed_error schema doc.definitions (∅, []) h
    refine ⟨op, hnone, hmem, ?_⟩
    rw [extract_spec, heq]
  · intro h m
    obtain ⟨st', hok⟩ := foldlM_seed_ok schema doc.definitions (∅, []) h
    obtain ⟨c, q⟩ := st'
    rw [extract_spec, hok]
    by_cases hq : q.isEmpty
    · show (if q.isEmpty then Except.error (ExtractError.emptyDocument emptyDocumentMessage)
          else Except.ok (drainLoop (typeToFieldsMap schema) q c)) ≠ _
      rw [if_pos hq]
      intro hc
      exact ExtractError.noConfusion (Except.error.inj hc)
    · show (if q.isEmpty then Except.error (ExtractError.emptyDocument emptyDocumentMessage)
          else Except.ok (drainLoop (typeToFieldsMap schema) q c)) ≠ _
      rw [if_neg hq]
      intro hc
      exact Except.noConfusion hc

/-- C1 witness: the subscription document against the pets schema (which
has no subscription root) raises the unsupported-operation error naming
`subscription`, and the basic query against the same schema does not. -/
theorem extract_unsupported_operation_witness :
    extractSchemaCoordinates subscriptionDoc petsSchema =
      .error (.unsupportedOperation
        "Schema is not configured to execute subscription operation.") ∧
    extractSchemaCoordinates basicQueryDoc petsSchema ≠
      .error (.unsupportedOperation
        "Schema is not configured to execute subscription operation.") := by
  constructor
  · obtain ⟨op, hnone, ⟨d, hd, vars, sel, hdef⟩, heq⟩ :=
      (extract_unsupported_operation subscriptionDoc petsSchema).1
        ⟨.operation .subscription [] (.cons (.field "bar" .none) .nil),
          by simp [subscriptionDoc], .subscription, [], _, rfl, rfl⟩
    have hd' : d = Definition.operation .subscription [] (.cons (.field "bar" .none) .nil) := by
      simpa [subscriptionDoc] using hd
    rw [hd'] at hdef
    injection hdef with h1 h2 h3
    subst h1
    exact heq
  · intro hc
    refine (extract_unsupported_operation basicQueryDoc petsSchema).2 ?_ _ hc
    intro d hd op vars sel hdef
    have hd' : d = Definition.operation .query []
        (.cons (.field "animalOwner" (.some
          (.cons (.field "name" .none)
          (.cons (.field "contactDetails" (.some
            (.cons (.field "email" .none) .nil)))
          .nil)))) .nil) := by
      simpa [basicQueryDoc] using hd
    rw [hd'] at hdef
    injection hdef with h1 h2 h3
    subst h1
    rfl

/-- C2 counterexample: a document whose only top-level definition is a
fragment definition (zero operation definitions) does NOT fail — it
returns the fragment's coordinates. -/
theorem fragmentOnly_returns_coordinates :
    extractSchemaCoordinates fragmentOnlyDoc petsSchema = .ok {"Dog.breed"} := by
  rw [extract_eq_fuel]
  decide

/-- C2 amended: extraction fails with the empty-document error exactly
when the document seeds no traversal root, i.e. contains neither
operation definitions nor fragment definitions; a document whose only
definitions are fragment definitions succeeds. -/
theorem emptyDocument_error_iff_no_roots (doc : DocumentAst) (schema : SchemaModel) :
    extractSchemaCoordinates doc schema = .error (.emptyDocument emptyDocumentMessage) ↔
    ∀ d ∈ doc.definitions,
      (∀ op vars sel, d ≠ Definition.operation op vars sel) ∧
      (∀ n tc sel, d ≠ Definition.fragment n tc sel) := by
  constructor
  · intro h
    rw [extract_spec] at h
    cases hsd : doc.definitions.foldlM (seedDefinition schema) (∅, []) with
    | error e =>
      rw [hsd] at h
      obtain ⟨m, hm⟩ := foldlM_seed_error_inv schema doc.definitions (∅, []) e hsd
      rw [hm] at h
      exact absurd (Except.error.inj h) (fun hh => ExtractError.noConfusion hh)
    | ok st =>
      obtain ⟨c, q⟩ := st
      rw [hsd] at h
      obtain ⟨pushed, hpq, hiff⟩ := foldlM_seed_queue schema doc.definitions ∅ [] c q hsd
      by_cases hq : q.isEmpty
      · have hqnil : q = [] := by
          cases q with
          | nil => rfl
          | cons a as => simp [List.isEmpty] at hq
        apply hiff.mp
        rw [hqnil, List.append_nil] at hpq
        exact hpq.symm
      · rw [show (match Except.ok (c, q) with
            | Except.error e => Except.error e
            | Except.ok (schemaCoordinates, queue) =>
              if queue.isEmpty then
                Except.error (ExtractError.emptyDocument emptyDocumentMessage)
              else Except.ok (drainLoop (typeToFieldsMap schema) queue schemaCoordinates)) =
            (if q.isEmpty then Except.error (ExtractError.emptyDocument emptyDocumentMessage)
              else Except.ok (drainLoop (typeToFieldsMap schema) q c)) from rfl,
          if_neg hq] at h
        exact absurd h (fun hh => Except.noConfusion hh)
  · intro hall
    obtain ⟨⟨c, q⟩, hok⟩ := foldlM_seed_ok schema doc.definitions (∅, [])
      (fun d hd op vars sel hdef => absurd hdef ((hall d hd).1 op vars sel))
    obtain ⟨pushed, hpq, hiff⟩ := foldlM_seed_queue schema doc.definitions ∅ [] c q hok
    have hq : q = [] := by
      rw [hpq, List.append_nil]
      exact hiff.mpr hall
    rw [extract_spec, hok, hq]
    rfl

/-- C2 amended witness: a document with only an ignored definition kind
(no operations, no fragments) fails with the empty-document error. -/
theorem emptyDocument_error_iff_no_roots_witness :
    extractSchemaCoordinates otherOnlyDoc petsSchema =
      .error (.emptyDocument emptyDocumentMessage) := by
  apply (emptyDocument_error_iff_no_roots otherOnlyDoc petsSchema).mpr
  intro d hd
  have hd' : d = Definition.otherDefinition := by simpa [otherOnlyDoc] using hd
  subst hd'
  exact ⟨fun op vars sel h => Definition.noConfusion h,
    fun n tc sel h => Definition.noConfusion h⟩

/-- C6: seeding an operation whose kind has a root type records, for every
declared variable, the named type computed by the recursive unwrap of
list/non-null wrappers, and the bare name is in the resulting coordinate
set iff it was already there or comes from a variable whose unwrapped name
is not one of the five built-in scalars. -/
theorem operation_variable_coordinates (schema : SchemaModel) (op : OperationType)
    (vars : List VariableDefinition) (sel : SelectionList) (coords : Finset String)
    (q : List Frame) (rootTypeName : String)
    (hroot : schema.getRootType op = some rootTypeName) :
    seedDefinition schema (coords, q) (.operation op vars sel) =
      .ok (vars.foldl addVariableCoordinate coords, ⟨rootTypeName, sel⟩ :: q) ∧
    ∀ x, x ∈ vars.foldl addVariableCoordinate coords ↔
      x ∈ coords ∨ ∃ v ∈ vars, getTypeNameFromType v.toRaw = some x ∧
        builtInScalars.contains x = false := by
  constructor
  · simp [seedDefinition, hroot]
  · intro x
    rw [mem_foldl_addVariableCoordinate]
    constructor
    · rintro (hx | ⟨v, hv, rfl, hc⟩)
      · exact Or.inl hx
      · exact Or.inr ⟨v, hv, varDef_toRaw_getTypeName v, hc⟩
    · rintro (hx | ⟨v, hv, hraw, hc⟩)
      · exact Or.inl hx
      · have hx : x = v.varType.typeName :=
          (Option.some.inj ((varDef_toRaw_getTypeName v).symm.trans hraw)).symm
        exact Or.inr ⟨v, hv, hx, by rw [← hx]; exact hc⟩

/-- C6 witness: the AddVet mutation's variables produce exactly the
non-scalar input name VetDetailsInput (the String! variable is skipped). -/
theorem operation_variable_coordinates_witness :
    seedDefinition petsSchema (∅, []) (.operation .mutation
        [⟨.nonNull (.named "VetDetailsInput")⟩, ⟨.nonNull (.named "String")⟩]
        (.cons (.field "addVet" .none) .nil)) =
      .ok ({"VetDetailsInput"}, [⟨"Mutation", .cons (.field "addVet" .none) .nil⟩]) := by
  have h := (operation_variable_coordinates petsSchema .mutation
    [⟨.nonNull (.named "VetDetailsInput")⟩, ⟨.nonNull (.named "String")⟩]
    (.cons (.field "addVet" .none) .nil) ∅ [] "Mutation" rfl).1
  rw [h]
  decide

/-- C7: the schema field index has an entry for a name iff the schema's
type map holds an object type of that name (interfaces, unions, scalars,
enums, input types are excluded); every entry of an indexed type's field
list comes from exactly the fields whose declaration carries an AST node,
recorded with the return type name the untyped recursive unwrap computes;
and every object type of the type map is indexed with that field list. -/
theorem typeToFieldsMap_characterization (schema : SchemaModel) (n : String) :
    ((∃ fs, (n, fs) ∈ typeToFieldsMap schema) ↔
      ∃ t ∈ schema.typeMap, t.kind = TypeKind.object ∧ t.name = n) ∧
    (∀ fs, (n, fs) ∈ typeToFieldsMap schema →
      ∃ t ∈ schema.typeMap, t.kind = TypeKind.object ∧ t.name = n ∧
        ∀ e : FieldEntry, e ∈ fs ↔ ∃ f ∈ t.fields, ∃ ty, f.astNodeType = some ty ∧
          e.field = f.name ∧ getTypeNameFromType ty.toRaw = some e.type) ∧
    (∀ t ∈ schema.typeMap, t.kind = TypeKind.object →
      (t.name, (t.fields.filter (fun f => f.astNodeType.isSome)).map (fun f =>
        { field := f.name, type := (f.astNodeType.map TypeNode.typeName).getD "" })) ∈
        typeToFieldsMap schema) := by
  refine ⟨?_, ?_, ?_⟩
  · constructor
    · rintro ⟨fs, hmem⟩
      rw [typeToFieldsMap, List.mem_map] at hmem
      obtain ⟨t, htf, heq⟩ := hmem
      rw [List.mem_filter] at htf
      refine ⟨t, htf.1, by simpa using htf.2, ?_⟩
      exact congrArg Prod.fst heq
    · rintro ⟨t, ht, hk, hn⟩
      refine ⟨(t.fields.filter (fun f => f.astNodeType.isSome)).map (fun f =>
        { field := f.name, type := (f.astNodeType.map TypeNode.typeName).getD "" }), ?_⟩
      rw [typeToFieldsMap, List.mem_map]
      exact ⟨t, List.mem_filter.mpr ⟨ht, by simpa using hk⟩, by rw [hn]⟩
  · intro fs hmem
    rw [typeToFieldsMap, List.mem_map] at hmem
    obtain ⟨t, htf, heq⟩ := hmem
    rw [List.mem_filter] at htf
    have hn : t.name = n := congrArg Prod.fst heq
    have hfs : fs = (t.fields.filter (fun f => f.astNodeType.isSome)).map (fun f =>
        ({ field := f.name, type := (f.astNodeType.map TypeNode.typeName).getD "" } :
          FieldEntry)) :=
      (congrArg Prod.snd heq).symm
    refine ⟨t, htf.1, by simpa using htf.2, hn, ?_⟩
    intro e
    rw [hfs, List.mem_map]
    constructor
    · rintro ⟨f, hf, rfl⟩
      rw [List.mem_filter] at hf
      obtain ⟨ty, hty⟩ := Option.isSome_iff_exists.mp hf.2
      refine ⟨f, hf.1, ty, hty, rfl, ?_⟩
      rw [hty]
      simpa using toRaw_getTypeName ty
    · rintro ⟨f, hf, ty, hty, hfe, hraw⟩
      refine ⟨f, List.mem_filter.mpr ⟨hf, by simp [hty]⟩, ?_⟩
      have htn : e.type = ty.typeName :=
        Option.some.inj ((toRaw_getTypeName ty).symm.trans hraw).symm
      cases e
      simp_all
  · intro t ht hk
    rw [typeToFieldsMap, List.mem_map]
    exact ⟨t, List.mem_filter.mpr ⟨ht, by simpa using hk⟩, rfl⟩

/-- C7 witness: the ContactDetails object type of the pets schema is
indexed with exactly its email field unwrapped to String. -/
theorem typeToFieldsMap_characterization_witness :
    ((⟨"ContactDetails", .object, [⟨"email", some (.named "String")⟩]⟩ : SchemaType) ∈
      petsSchema.typeMap) ∧
    ("ContactDetails", [({ field := "email", type := "String" } : FieldEntry)]) ∈
      typeToFieldsMap petsSchema := by
  constructor
  · decide
  · have h := (typeToFieldsMap_characterization petsSchema "ContactDetails").2.2
      ⟨"ContactDetails", .object, [⟨"email", some (.named "String")⟩]⟩ (by decide) rfl
    exact h

/-- C9: a variable declaration's unwrapped named type reaches the result
set without any lookup against the schema: whenever extraction succeeds,
every non-built-in variable type name of every operation in the document
is in the returned set — for an arbitrary schema, in particular one
declaring no type of that name. -/
theorem variable_coordinate_no_schema_lookup (doc : DocumentAst) (schema : SchemaModel)
    (s : Finset String) (hok : extractSchemaCoordinates doc schema = .ok s)
    (op : OperationType) (vars : List VariableDefinition) (sel : SelectionList)
    (hmem : Definition.operation op vars sel ∈ doc.definitions)
    (v : VariableDefinition) (hv : v ∈ vars)
    (hns : builtInScalars.contains v.varType.typeName = false) :
    v.varType.typeName ∈ s := by
  rw [extract_spec] at hok
  cases hsd : doc.definitions.foldlM (seedDefinition schema) (∅, []) with
  | error e =>
    rw [hsd] at hok
    exact Except.noConfusion hok
  | ok st =>
    obtain ⟨c, q⟩ := st
    rw [hsd] at hok
    have hok' : (if q.isEmpty then
          Except.error (ExtractError.emptyDocument emptyDocumentMessage)
        else Except.ok (drainLoop (typeToFieldsMap schema) q c)) = Except.ok s := hok
    by_cases hq : q.isEmpty
    · rw [if_pos hq] at hok'
      exact Except.noConfusion hok'
    · rw [if_neg hq] at hok'
      have hs : drainLoop (typeToFieldsMap schema) q c = s := Except.ok.inj hok'
      have hc : v.varType.typeName ∈ c :=
        foldlM_seed_var_mem schema doc.definitions ∅ [] c q op vars sel hsd hmem v hv hns
      rw [← hs]
      exact drainLoop_coords_mono _ (queueWeight q) q c (le_refl _) hc

/-- C9 witness: a variable of type CustomInput! — a name declared nowhere
in the pets schema — still appears in the result set. -/
theorem variable_coordinate_no_schema_lookup_witness :
    extractSchemaCoordinates customInputDoc petsSchema =
      .ok {"Root.animalOwner", "CustomInput"} ∧
    "CustomInput" ∈ ({"Root.animalOwner", "CustomInput"} : Finset String) := by
  have hok : extractSchemaCoordinates customInputDoc petsSchema =
      .ok {"Root.animalOwner", "CustomInput"} := by
    rw [extract_eq_fuel]
    decide
  refine ⟨hok, ?_⟩
  exact variable_coordinate_no_schema_lookup customInputDoc petsSchema _ hok .query
    [⟨.nonNull (.named "CustomInput")⟩] (.cons (.field "animalOwner" .none) .nil)
    (by simp [customInputDoc]) ⟨.nonNull (.named "CustomInput")⟩ (by simp) rfl

end ExtractSchemaCoordinates
